import Mathlib

/-!
Shallow embedding of `src/iota-conversion/trytes_converter.rs`.

Strings are modelled as `List Char` (a Rust `&str` is a sequence of `char`s
with a UTF-8 byte length, which we track separately via `utf8Len`).
Rust indexing panics are modelled by an outer `Option`: `none` means the
function panics, `some r` means it returns `r`.
-/

set_option maxRecDepth 16384

namespace IotaConversion

/-- The printable-ASCII string iterated over when building `CHAR_TO_ASCII_MAP`
(characters 0x20 to 0x7E, in order; some characters written with hex escapes). -/
def printableChars : List Char :=
  " !\x22#$%&\x27()*+,-./0123456789:;<=>?@ABCDEFGHIJKLMNOPQRSTUVWXYZ[\\]^_\x60abcdefghijklmnopqrstuvwxyz\x7b|\x7d~".data

/-- The insertion sequence of `CHAR_TO_ASCII_MAP`: newline at 10, then the
printable characters at consecutive ordinals starting at 32. -/
def tableEntries : List (Char × Nat) :=
  (Char.ofNat 10, 10) :: printableChars.enum.map (fun p => (p.2, 32 + p.1))

/-- The lazily built `CHAR_TO_ASCII_MAP : HashMap<char, usize>`, as a lookup
function (the keys are distinct, see `tableEntries_keys_nodup`, so assoc-list
lookup agrees with the hash map). -/
def CHAR_TO_ASCII_MAP (c : Char) : Option Nat :=
  (tableEntries.find? (fun p => p.1 == c)).map (fun p => p.2)

/-- The lazily built `ASCII_TO_CHAR_MAP : HashMap<usize, char>`, obtained by
inverting `CHAR_TO_ASCII_MAP` (the values are distinct, see
`tableEntries_vals_nodup`, so the inversion loses no entry). -/
def ASCII_TO_CHAR_MAP (n : Nat) : Option Char :=
  (tableEntries.find? (fun p => p.2 == n)).map (fun p => p.1)

/-- Modelled from the spec: the alphabet constant `iota_constants::TRYTE_ALPHABET`
is an external collaborator, not part of these sources. The spec fixes it as an
ordered sequence of 27 distinct symbols, and the literal test vectors pin it
down as the digit 9 followed by the uppercase letters A through Z. -/
def TRYTE_ALPHABET : List Char := "9ABCDEFGHIJKLMNOPQRSTUVWXYZ".data

/-- The error enum `TryteConverterError`. -/
inductive TryteConverterError
  | StringNotAscii (string : List Char)
  | StringNotTrytes (string : List Char)
deriving DecidableEq

instance {ε α : Type} [DecidableEq ε] [DecidableEq α] : DecidableEq (Except ε α) := fun x y =>
  match x, y with
  | .ok a, .ok b =>
    if h : a = b then .isTrue (by rw [h]) else .isFalse (by intro he; cases he; exact h rfl)
  | .error a, .error b =>
    if h : a = b then .isTrue (by rw [h]) else .isFalse (by intro he; cases he; exact h rfl)
  | .ok _, .error _ => .isFalse (by intro he; cases he)
  | .error _, .ok _ => .isFalse (by intro he; cases he)

/-- First loop of `to_trytes`: collect the ordinal of every character, failing
with `StringNotAscii` (carrying the whole original input) on the first
character absent from `CHAR_TO_ASCII_MAP`. -/
def collectAscii (orig : List Char) : List Char → Except TryteConverterError (List Nat)
  | [] => .ok []
  | c :: rest =>
    match CHAR_TO_ASCII_MAP c with
    | some a =>
      match collectAscii orig rest with
      | .ok tl => .ok (a :: tl)
      | .error e => .error e
    | none => .error (.StringNotAscii orig)

/-- Body of the second loop of `to_trytes`: clamp, radix-27 split, and the two
alphabet indexings (`none` models an out-of-bounds indexing panic). -/
def encodeByte (b : Nat) : Option (List Char) :=
  let ascii := if b > 255 then 32 else b
  let first := ascii % 27
  let second := (ascii - first) / 27
  match TRYTE_ALPHABET.get? first, TRYTE_ALPHABET.get? second with
  | some x, some y => some [x, y]
  | _, _ => none

/-- Second loop of `to_trytes`, over the collected ordinals. -/
def encodeBytes : List Nat → Option (List Char)
  | [] => some []
  | b :: rest =>
    match encodeByte b, encodeBytes rest with
    | some pair, some tl => some (pair ++ tl)
    | _, _ => none

/-- `to_trytes(input: &str) -> Result<String>`. -/
def to_trytes (input : List Char) : Option (Except TryteConverterError (List Char)) :=
  match collectAscii input input with
  | .error e => some (.error e)
  | .ok tmp =>
    match encodeBytes tmp with
    | some trytes => some (.ok trytes)
    | none => none

/-- Rust's `iter().position(pred)`. -/
def position (pred : Char → Bool) : List Char → Option Nat
  | [] => none
  | x :: xs => if pred x then some 0 else (position pred xs).map (fun i => i + 1)

/-- The UTF-8 byte length of a string, `input_trytes.len()` in Rust. -/
def utf8Len : List Char → Nat
  | [] => 0
  | c :: rest => c.utf8Size + utf8Len rest

/-- The odd-length trim `input_trytes = &input_trytes[..len - 1]`: performed when
the byte length is odd; slicing one byte off panics (`none`) unless the last
character occupies exactly one byte. -/
def trimOdd (input : List Char) : Option (List Char) :=
  if utf8Len input % 2 = 0 then some input
  else
    match input.getLast? with
    | none => some input
    | some c => if c.utf8Size = 1 then some input.dropLast else none

/-- The `chars.chunks(2)` loop of `to_string`. `orig` is the (rebound, already
trimmed) `input_trytes` named by `StringNotTrytes` errors. A final singleton
chunk reaches the out-of-bounds access `letters[1]` (modelled as `none`) only
after `letters[0]` was found in the alphabet. -/
def decodeLoop (orig : List Char) : List Char → Option (Except TryteConverterError (List Char))
  | [] => some (.ok [])
  | [a] =>
    match position (fun x => x == a) TRYTE_ALPHABET with
    | none => some (.error (.StringNotTrytes orig))
    | some _ => none
  | a :: b :: rest =>
    match position (fun x => x == a) TRYTE_ALPHABET with
    | none => some (.error (.StringNotTrytes orig))
    | some first =>
      match position (fun x => x == b) TRYTE_ALPHABET with
      | none => some (.error (.StringNotTrytes orig))
      | some second =>
        match decodeLoop orig rest with
        | none => none
        | some (.error e) => some (.error e)
        | some (.ok tl) =>
          match ASCII_TO_CHAR_MAP (first + second * 27) with
          | some t => some (.ok (t :: tl))
          | none => some (.ok tl)

/-- `to_string(mut input_trytes: &str) -> Result<String>`. -/
def to_string (input : List Char) : Option (Except TryteConverterError (List Char)) :=
  match trimOdd input with
  | none => none
  | some trimmed => decodeLoop trimmed trimmed

/-- Closed form of `encodeByte`: the pair it produces when neither alphabet
indexing is out of bounds. -/
def encPair (b : Nat) : List Char :=
  [TRYTE_ALPHABET.getD ((if b > 255 then 32 else b) % 27) ' ',
   TRYTE_ALPHABET.getD
     (((if b > 255 then 32 else b) - (if b > 255 then 32 else b) % 27) / 27) ' ']

/-- Closed form of the encoding loop of `to_trytes`. -/
def encTr : List Nat → List Char
  | [] => []
  | b :: rest => encPair b ++ encTr rest

/-- The ordinals collected by `to_trytes` for a string of supported characters. -/
def ords (s : List Char) : List Nat := s.map (fun c => (CHAR_TO_ASCII_MAP c).getD 0)

/-! ### Properties of the lookup tables -/

/-- The keys inserted into `CHAR_TO_ASCII_MAP` are pairwise distinct. -/
theorem tableEntries_keys_nodup : (tableEntries.map Prod.fst).Nodup := by decide

/-- The values inserted into `CHAR_TO_ASCII_MAP` are pairwise distinct, so
inverting it into `ASCII_TO_CHAR_MAP` loses no entry. -/
theorem tableEntries_vals_nodup : (tableEntries.map Prod.snd).Nodup := by decide

set_option maxRecDepth 4096 in
theorem tableEntries_keys_eq : tableEntries.map Prod.fst = Char.ofNat 10 :: printableChars := by
  decide

theorem printable_range : ∀ c ∈ printableChars, 32 ≤ c.toNat ∧ c.toNat ≤ 126 := by decide

theorem tableEntries_vals_le : ∀ p ∈ tableEntries, p.2 ≤ 126 := by decide

theorem char_map_ofNat : ∀ n, n < 127 → 32 ≤ n → CHAR_TO_ASCII_MAP (Char.ofNat n) = some n := by
  decide

theorem mem_of_char_map {c : Char} {o : Nat} (h : CHAR_TO_ASCII_MAP c = some o) :
    (c, o) ∈ tableEntries := by
  unfold CHAR_TO_ASCII_MAP at h
  cases hf : tableEntries.find? (fun p => p.1 == c) with
  | none => rw [hf] at h; simp at h
  | some p =>
    rw [hf] at h
    have hp : p.1 = c := by simpa using List.find?_some hf
    have hm := List.mem_of_find?_eq_some hf
    obtain ⟨p1, p2⟩ := p
    simp only [Option.map_some'] at h
    cases h
    cases hp
    exact hm

theorem char_map_of_mem {c : Char} {o : Nat} (h : (c, o) ∈ tableEntries) :
    CHAR_TO_ASCII_MAP c = some o := by
  unfold CHAR_TO_ASCII_MAP
  cases hf : tableEntries.find? (fun p => p.1 == c) with
  | none =>
    exfalso
    have := List.find?_eq_none.mp hf (c, o) h
    simp at this
  | some p =>
    have hp : p.1 = c := by simpa using List.find?_some hf
    have hm := List.mem_of_find?_eq_some hf
    have hpe : p = (c, o) :=
      List.inj_on_of_nodup_map tableEntries_keys_nodup hm h (by rw [hp])
    rw [hpe]
    rfl

theorem mem_of_ascii_map {n : Nat} {c : Char} (h : ASCII_TO_CHAR_MAP n = some c) :
    (c, n) ∈ tableEntries := by
  unfold ASCII_TO_CHAR_MAP at h
  cases hf : tableEntries.find? (fun p => p.2 == n) with
  | none => rw [hf] at h; simp at h
  | some p =>
    rw [hf] at h
    have hp : p.2 = n := by simpa using List.find?_some hf
    have hm := List.mem_of_find?_eq_some hf
    obtain ⟨p1, p2⟩ := p
    simp only [Option.map_some'] at h
    cases h
    cases hp
    exact hm

theorem ascii_map_of_mem {c : Char} {n : Nat} (h : (c, n) ∈ tableEntries) :
    ASCII_TO_CHAR_MAP n = some c := by
  unfold ASCII_TO_CHAR_MAP
  cases hf : tableEntries.find? (fun p => p.2 == n) with
  | none =>
    exfalso
    have := List.find?_eq_none.mp hf (c, n) h
    simp at this
  | some p =>
    have hp : p.2 = n := by simpa using List.find?_some hf
    have hm := List.mem_of_find?_eq_some hf
    have hpe : p = (c, n) :=
      List.inj_on_of_nodup_map tableEntries_vals_nodup hm h (by rw [hp])
    rw [hpe]
    rfl

/-- `ASCII_TO_CHAR_MAP` inverts `CHAR_TO_ASCII_MAP`. -/
theorem ascii_map_char_map {c : Char} {o : Nat} (h : CHAR_TO_ASCII_MAP c = some o) :
    ASCII_TO_CHAR_MAP o = some c :=
  ascii_map_of_mem (mem_of_char_map h)

/-- `CHAR_TO_ASCII_MAP` inverts `ASCII_TO_CHAR_MAP`. -/
theorem char_map_ascii_map {o : Nat} {c : Char} (h : ASCII_TO_CHAR_MAP o = some c) :
    CHAR_TO_ASCII_MAP c = some o :=
  char_map_of_mem (mem_of_ascii_map h)

/-- Every ordinal produced by the character table is at most 126. -/
theorem char_map_le {c : Char} {o : Nat} (h : CHAR_TO_ASCII_MAP c = some o) : o ≤ 126 :=
  tableEntries_vals_le _ (mem_of_char_map h)

/-- The supported characters are exactly newline and printable ASCII 0x20-0x7E. -/
theorem char_map_isSome_iff (c : Char) :
    (CHAR_TO_ASCII_MAP c).isSome ↔ c = Char.ofNat 10 ∨ (32 ≤ c.toNat ∧ c.toNat ≤ 126) := by
  constructor
  · intro h
    obtain ⟨o, ho⟩ := Option.isSome_iff_exists.mp h
    have hm := mem_of_char_map ho
    have hk : c ∈ tableEntries.map Prod.fst := List.mem_map_of_mem Prod.fst hm
    rw [tableEntries_keys_eq] at hk
    rcases List.mem_cons.mp hk with h10 | hpr
    · exact Or.inl h10
    · exact Or.inr (printable_range c hpr)
  · intro h
    rcases h with h10 | ⟨h1, h2⟩
    · rw [h10]
      decide
    · have := char_map_ofNat c.toNat (by omega) h1
      rw [Char.ofNat_toNat] at this
      rw [this]
      rfl

/-! ### Properties of the encoder -/

theorem alphabet_get?_lt : ∀ i < 27, TRYTE_ALPHABET.get? i = some (TRYTE_ALPHABET.getD i ' ') := by
  decide

theorem alphabet_getD_utf8 : ∀ i < 27, (TRYTE_ALPHABET.getD i ' ').utf8Size = 1 := by decide

theorem encodeByte_eq (b : Nat) : encodeByte b = some (encPair b) := by
  by_cases hb : b > 255
  · simp only [encodeByte, encPair, if_pos hb]
    rw [alphabet_get?_lt (32 % 27) (by omega), alphabet_get?_lt ((32 - 32 % 27) / 27) (by omega)]
  · simp only [encodeByte, encPair, if_neg hb]
    have hble : b ≤ 255 := by omega
    rw [alphabet_get?_lt (b % 27) (by omega), alphabet_get?_lt ((b - b % 27) / 27) (by omega)]

theorem encodeBytes_eq : ∀ os : List Nat, encodeBytes os = some (encTr os)
  | [] => rfl
  | b :: rest => by
    simp only [encodeBytes, encTr, encodeByte_eq b, encodeBytes_eq rest]

theorem collectAscii_ok : ∀ (s orig : List Char),
    (∀ c ∈ s, (CHAR_TO_ASCII_MAP c).isSome) → collectAscii orig s = .ok (ords s)
  | [], _, _ => rfl
  | c :: rest, orig, h => by
    obtain ⟨o, ho⟩ := Option.isSome_iff_exists.mp (h c (by simp))
    have hrest := collectAscii_ok rest orig (fun x hx => h x (by simp [hx]))
    simp only [collectAscii, ords, List.map_cons, ho, hrest, Option.getD_some]

theorem collectAscii_err : ∀ (s orig : List Char),
    (∃ c ∈ s, CHAR_TO_ASCII_MAP c = none) →
    collectAscii orig s = .error (.StringNotAscii orig)
  | [], _, h => absurd h (by simp)
  | c :: rest, orig, h => by
    cases hc : CHAR_TO_ASCII_MAP c with
    | none => simp [collectAscii, hc]
    | some a =>
      have hex : ∃ x ∈ rest, CHAR_TO_ASCII_MAP x = none := by
        obtain ⟨x, hx, hxn⟩ := h
        rcases List.mem_cons.mp hx with rfl | hmem
        · rw [hc] at hxn; cases hxn
        · exact ⟨x, hmem, hxn⟩
      have hrest := collectAscii_err rest orig hex
      simp [collectAscii, hc, hrest]

theorem to_trytes_ok {s : List Char} (h : ∀ c ∈ s, (CHAR_TO_ASCII_MAP c).isSome) :
    to_trytes s = some (.ok (encTr (ords s))) := by
  simp [to_trytes, collectAscii_ok s s h, encodeBytes_eq]

theorem to_trytes_err {s : List Char} (h : ∃ c ∈ s, CHAR_TO_ASCII_MAP c = none) :
    to_trytes s = some (.error (.StringNotAscii s)) := by
  simp [to_trytes, collectAscii_err s s h]

theorem to_trytes_isSome (input : List Char) : (to_trytes input).isSome := by
  unfold to_trytes
  cases hc : collectAscii input input with
  | error e => simp
  | ok tmp => simp [encodeBytes_eq]

theorem length_encTr : ∀ os : List Nat, (encTr os).length = 2 * os.length
  | [] => rfl
  | b :: rest => by
    have h2 : (encPair b).length = 2 := rfl
    simp [encTr, h2, length_encTr rest]
    omega

theorem length_ords (s : List Char) : (ords s).length = s.length := by simp [ords]

theorem utf8Len_append : ∀ l1 l2 : List Char, utf8Len (l1 ++ l2) = utf8Len l1 + utf8Len l2
  | [], l2 => by simp [utf8Len]
  | c :: rest, l2 => by
    simp [utf8Len, utf8Len_append rest l2]
    omega

theorem utf8Len_encTr : ∀ os : List Nat, utf8Len (encTr os) = 2 * os.length
  | [] => rfl
  | b :: rest => by
    simp only [encTr, encPair, utf8Len_append, utf8Len]
    have hle : (if b > 255 then 32 else b) ≤ 255 := by split <;> omega
    rw [alphabet_getD_utf8 ((if b > 255 then 32 else b) % 27) (by omega),
      alphabet_getD_utf8
        (((if b > 255 then 32 else b) - (if b > 255 then 32 else b) % 27) / 27) (by omega)]
    simp [utf8Len_encTr rest]
    omega

/-! ### Properties of the decoder -/

theorem alphabet_position_getD : ∀ i < 27,
    position (fun x => x == TRYTE_ALPHABET.getD i ' ') TRYTE_ALPHABET = some i := by decide

theorem position_eq_none_iff (a : Char) : ∀ l : List Char,
    position (fun x => x == a) l = none ↔ a ∉ l
  | [] => by simp [position]
  | x :: xs => by
    by_cases hx : x = a
    · subst hx
      simp [position]
    · have hxa : ¬ a = x := fun he => hx he.symm
      have hb : (x == a) = false := beq_eq_false_iff_ne.mpr hx
      simp [position, hb, Option.map_eq_none', position_eq_none_iff a xs, List.mem_cons, hxa]

theorem trimOdd_of_even {l : List Char} (h : utf8Len l % 2 = 0) : trimOdd l = some l := by
  simp [trimOdd, h]

theorem decodeLoop_isSome_of_even : ∀ l : List Char, l.length % 2 = 0 → ∀ orig : List Char,
    (decodeLoop orig l).isSome
  | [], _, orig => by simp [decodeLoop]
  | [a], h, orig => by simp at h
  | a :: b :: rest, h, orig => by
    have hr : rest.length % 2 = 0 := by simp [List.length_cons] at h; omega
    have ih := decodeLoop_isSome_of_even rest hr orig
    cases hp1 : position (fun x => x == a) TRYTE_ALPHABET with
    | none => simp [decodeLoop, hp1]
    | some f1 =>
      cases hp2 : position (fun x => x == b) TRYTE_ALPHABET with
      | none => simp [decodeLoop, hp1, hp2]
      | some f2 =>
        cases hrec : decodeLoop orig rest with
        | none => rw [hrec] at ih; simp at ih
        | some r =>
          cases r with
          | error e => simp [decodeLoop, hp1, hp2, hrec]
          | ok tl =>
            cases hmap : ASCII_TO_CHAR_MAP (f1 + f2 * 27) with
            | none => simp [decodeLoop, hp1, hp2, hrec, hmap]
            | some t => simp [decodeLoop, hp1, hp2, hrec, hmap]

theorem decodeLoop_error : ∀ (orig l : List Char) (e : TryteConverterError),
    decodeLoop orig l = some (.error e) → e = .StringNotTrytes orig
  | orig, [], e, h => by simp [decodeLoop] at h
  | orig, [a], e, h => by
    cases hp : position (fun x => x == a) TRYTE_ALPHABET with
    | none =>
      simp [decodeLoop, hp] at h
      exact h.symm
    | some i => simp [decodeLoop, hp] at h
  | orig, a :: b :: rest, e, h => by
    cases hp1 : position (fun x => x == a) TRYTE_ALPHABET with
    | none =>
      simp [decodeLoop, hp1] at h
      exact h.symm
    | some f1 =>
      cases hp2 : position (fun x => x == b) TRYTE_ALPHABET with
      | none =>
        simp [decodeLoop, hp1, hp2] at h
        exact h.symm
      | some f2 =>
        cases hrec : decodeLoop orig rest with
        | none => simp [decodeLoop, hp1, hp2, hrec] at h
        | some r =>
          cases r with
          | error e2 =>
            have he2 := decodeLoop_error orig rest e2 hrec
            simp [decodeLoop, hp1, hp2, hrec] at h
            rw [← h]
            exact he2
          | ok tl =>
            cases hmap : ASCII_TO_CHAR_MAP (f1 + f2 * 27) with
            | none => simp [decodeLoop, hp1, hp2, hrec, hmap] at h
            | some t => simp [decodeLoop, hp1, hp2, hrec, hmap] at h

theorem decodeLoop_error_of_invalid : ∀ (orig l : List Char),
    (∃ c ∈ l, c ∉ TRYTE_ALPHABET) →
    decodeLoop orig l = some (.error (.StringNotTrytes orig))
  | orig, [], h => absurd h (by simp)
  | orig, [a], h => by
    have ha : a ∉ TRYTE_ALPHABET := by
      obtain ⟨c, hc, hcn⟩ := h
      rcases List.mem_cons.mp hc with rfl | h0
      · exact hcn
      · simp at h0
    simp [decodeLoop, (position_eq_none_iff a TRYTE_ALPHABET).mpr ha]
  | orig, a :: b :: rest, h => by
    by_cases ha : a ∈ TRYTE_ALPHABET
    · obtain ⟨i, hi⟩ : ∃ i, position (fun x => x == a) TRYTE_ALPHABET = some i := by
        cases hp : position (fun x => x == a) TRYTE_ALPHABET with
        | none => exact absurd ha ((position_eq_none_iff a TRYTE_ALPHABET).mp hp)
        | some i => exact ⟨i, rfl⟩
      by_cases hbm : b ∈ TRYTE_ALPHABET
      · obtain ⟨j, hj⟩ : ∃ j, position (fun x => x == b) TRYTE_ALPHABET = some j := by
          cases hp : position (fun x => x == b) TRYTE_ALPHABET with
          | none => exact absurd hbm ((position_eq_none_iff b TRYTE_ALPHABET).mp hp)
          | some j => exact ⟨j, rfl⟩
        have hrest : ∃ c ∈ rest, c ∉ TRYTE_ALPHABET := by
          obtain ⟨c, hc, hcn⟩ := h
          rcases List.mem_cons.mp hc with rfl | hc2
          · exact absurd ha hcn
          rcases List.mem_cons.mp hc2 with rfl | hc3
          · exact absurd hbm hcn
          · exact ⟨c, hc3, hcn⟩
        have ih := decodeLoop_error_of_invalid orig rest hrest
        simp [decodeLoop, hi, hj, ih]
      · have hpb := (position_eq_none_iff b TRYTE_ALPHABET).mpr hbm
        simp [decodeLoop, hi, hpb]
    · have hpa := (position_eq_none_iff a TRYTE_ALPHABET).mpr ha
      simp [decodeLoop, hpa]

theorem decode_encTr : ∀ s : List Char, (∀ c ∈ s, (CHAR_TO_ASCII_MAP c).isSome) →
    ∀ orig : List Char, decodeLoop orig (encTr (ords s)) = some (.ok s)
  | [], _, orig => rfl
  | c :: rest, h, orig => by
    obtain ⟨o, ho⟩ := Option.isSome_iff_exists.mp (h c (by simp))
    have hob : o ≤ 126 := char_map_le ho
    have ih := decode_encTr rest (fun x hx => h x (by simp [hx])) orig
    have hords : ords (c :: rest) = o :: ords rest := by simp [ords, ho]
    rw [hords]
    have hclamp : ¬ o > 255 := by omega
    have hpair : encPair o =
        [TRYTE_ALPHABET.getD (o % 27) ' ', TRYTE_ALPHABET.getD ((o - o % 27) / 27) ' '] := by
      simp [encPair, hclamp]
    have hshape : encTr (o :: ords rest) =
        TRYTE_ALPHABET.getD (o % 27) ' ' :: TRYTE_ALPHABET.getD ((o - o % 27) / 27) ' ' ::
          encTr (ords rest) := by
      rw [encTr, hpair]
      rfl
    rw [hshape]
    have hdec : o % 27 + ((o - o % 27) / 27) * 27 = o := by omega
    simp only [decodeLoop, alphabet_position_getD (o % 27) (by omega),
      alphabet_position_getD ((o - o % 27) / 27) (by omega), ih, hdec,
      ascii_map_char_map ho]

theorem to_string_encTr {s : List Char} (h : ∀ c ∈ s, (CHAR_TO_ASCII_MAP c).isSome) :
    to_string (encTr (ords s)) = some (.ok s) := by
  have he : utf8Len (encTr (ords s)) % 2 = 0 := by rw [utf8Len_encTr]; omega
  simp [to_string, trimOdd_of_even he, decode_encTr s h]

theorem utf8Len_eq_length : ∀ l : List Char, (∀ c ∈ l, c.utf8Size = 1) →
    utf8Len l = l.length
  | [], _ => rfl
  | c :: rest, h => by
    have h1 := h c (by simp)
    have ih := utf8Len_eq_length rest (fun x hx => h x (by simp [hx]))
    simp [utf8Len, h1, ih]
    omega

theorem supported_of_spec {s : List Char}
    (h : ∀ c ∈ s, c = '\n' ∨ (32 ≤ c.toNat ∧ c.toNat ≤ 126)) :
    ∀ c ∈ s, (CHAR_TO_ASCII_MAP c).isSome := by
  intro c hc
  rw [char_map_isSome_iff]
  rcases h c hc with h1 | h2
  · subst h1; left; decide
  · right; exact h2

/-! ### The claims -/

/-- Claim C1: for every string composed only of supported characters (newline plus
printable ASCII 0x20-0x7E), `to_trytes` succeeds and `to_string` applied to its
result succeeds and returns the original string. -/
theorem claim_C1_roundtrip (s : List Char)
    (h : ∀ c ∈ s, c = '\n' ∨ (32 ≤ c.toNat ∧ c.toNat ≤ 126)) :
    ∃ tr, to_trytes s = some (.ok tr) ∧ to_string tr = some (.ok s) :=
  ⟨encTr (ords s), to_trytes_ok (supported_of_spec h), to_string_encTr (supported_of_spec h)⟩

/-- Witness for C1 at the concrete string "JOTA JOTA". -/
theorem claim_C1_witness :
    ∃ tr, to_trytes "JOTA JOTA".data = some (.ok tr) ∧
      to_string tr = some (.ok "JOTA JOTA".data) :=
  claim_C1_roundtrip "JOTA JOTA".data (by decide)

/-- Counterexample to claim C2: the decoder rebinds `input_trytes` to the trimmed
slice before any error is built, so on the odd-length input "@@A" the
`StringNotTrytes` error carries the trimmed string "@@", not the original
untrimmed input "@@A". -/
theorem claim_C2_counterexample :
    to_string "@@A".data = some (.error (.StringNotTrytes "@@".data)) ∧
    "@@".data ≠ "@@A".data :=
  ⟨by decide, by decide⟩

/-- Claim C2 as amended: every error returned by `to_string` is a
`StringNotTrytes` carrying the input as trimmed (after dropping an odd trailing
symbol); this equals the original input exactly when no trim occurred. -/
theorem claim_C2_amended (input : List Char) (e : TryteConverterError)
    (h : to_string input = some (.error e)) :
    ∃ t, trimOdd input = some t ∧ e = .StringNotTrytes t := by
  unfold to_string at h
  cases ht : trimOdd input with
  | none => rw [ht] at h; cases h
  | some t =>
    rw [ht] at h
    exact ⟨t, rfl, decodeLoop_error t t e h⟩

/-- Witness for the amended C2 at the concrete input "@@A". -/
theorem claim_C2_witness :
    ∃ t, trimOdd "@@A".data = some t ∧
      TryteConverterError.StringNotTrytes "@@".data = .StringNotTrytes t :=
  claim_C2_amended "@@A".data (.StringNotTrytes "@@".data) (by decide)

/-- Counterexample to claim C3: the input "AB@" contains the symbol @, which is
outside the 27-symbol alphabet, yet `to_string` succeeds, because the invalid
symbol is the trailing one of an odd-length input and is silently dropped. -/
theorem claim_C3_counterexample :
    '@' ∈ "AB@".data ∧ '@' ∉ TRYTE_ALPHABET ∧ to_string "AB@".data = some (.ok "7".data) :=
  ⟨by decide, by decide, by decide⟩

/-- Claim C3 as amended: `to_string` fails with `StringNotTrytes` on every input
that still contains a symbol outside the alphabet after the odd-length trim; an
invalid symbol that is only the dropped trailing one causes no error. -/
theorem claim_C3_amended (input t : List Char) (h : trimOdd input = some t)
    (hinv : ∃ c ∈ t, c ∉ TRYTE_ALPHABET) :
    to_string input = some (.error (.StringNotTrytes t)) := by
  unfold to_string
  rw [h]
  exact decodeLoop_error_of_invalid t t hinv

/-- Witness for the amended C3 at the concrete input "@@". -/
theorem claim_C3_witness : to_string "@@".data = some (.error (.StringNotTrytes "@@".data)) :=
  claim_C3_amended "@@".data "@@".data (by decide) (by decide)

/-- Claim C4: for every string of supported characters, `to_trytes` returns a
string of length exactly twice the number of characters of the input. -/
theorem claim_C4_length (s : List Char)
    (h : ∀ c ∈ s, c = '\n' ∨ (32 ≤ c.toNat ∧ c.toNat ≤ 126)) :
    ∃ tr, to_trytes s = some (.ok tr) ∧ tr.length = 2 * s.length := by
  refine ⟨encTr (ords s), to_trytes_ok (supported_of_spec h), ?_⟩
  rw [length_encTr, length_ords]

/-- Witness for C4 at the concrete string "JOTA". -/
theorem claim_C4_witness :
    ∃ tr, to_trytes "JOTA".data = some (.ok tr) ∧ tr.length = 2 * "JOTA".data.length :=
  claim_C4_length "JOTA".data (by decide)

/-- Counterexample to claim C5: appending one symbol does not always preserve the
result of `to_string`. For the odd-length input "A", `to_string "A"` drops the
"A" and decodes to the empty string, while `to_string "AB"` decodes a pair. -/
theorem claim_C5_counterexample : to_string "A".data ≠ to_string "AB".data := by decide

/-- Claim C5 as amended: appending one extra single-byte symbol to an input of
even byte length leaves `to_string` unchanged, the trailing odd symbol being
silently dropped; for inputs of odd byte length the equality fails. -/
theorem claim_C5_amended (t : List Char) (x : Char)
    (h1 : utf8Len t % 2 = 0) (h2 : x.utf8Size = 1) :
    to_string (t ++ [x]) = to_string t := by
  have hx1 : utf8Len (t ++ [x]) = utf8Len t + 1 := by
    rw [utf8Len_append]
    simp [utf8Len, h2]
  have htrim : trimOdd (t ++ [x]) = some t := by
    unfold trimOdd
    rw [hx1, if_neg (by omega), List.getLast?_concat]
    simp [h2, List.dropLast_concat]
  unfold to_string
  rw [htrim, trimOdd_of_even h1]

/-- Witness for the amended C5: appending the filler symbol 9 to "AB". -/
theorem claim_C5_witness : to_string ("AB".data ++ ['9']) = to_string "AB".data :=
  claim_C5_amended "AB".data '9' (by decide) (by decide)

/-- Claim C6: `to_trytes` on every input containing an unsupported character
fails with `StringNotAscii` (the spec's NotEncodable) carrying the whole
original input string, and on every fully supported input it does not fail. -/
theorem claim_C6_not_encodable :
    (∀ s : List Char, (∃ c ∈ s, ¬(c = '\n' ∨ (32 ≤ c.toNat ∧ c.toNat ≤ 126))) →
      to_trytes s = some (.error (.StringNotAscii s))) ∧
    (∀ s : List Char, (∀ c ∈ s, c = '\n' ∨ (32 ≤ c.toNat ∧ c.toNat ≤ 126)) →
      ∃ tr, to_trytes s = some (.ok tr)) := by
  constructor
  · intro s hs
    apply to_trytes_err
    obtain ⟨c, hc, hcn⟩ := hs
    refine ⟨c, hc, ?_⟩
    have hns : ¬ (CHAR_TO_ASCII_MAP c).isSome := by
      rw [char_map_isSome_iff]
      intro hcon
      apply hcn
      rcases hcon with h1 | h2
      · left; rw [h1]
      · right; exact h2
    exact Option.not_isSome_iff_eq_none.mp hns
  · intro s hs
    exact ⟨encTr (ords s), to_trytes_ok (supported_of_spec hs)⟩

/-- Witness for C6: the two-byte character U+00E9 is not encodable, while "Z"
is. -/
theorem claim_C6_witness :
    to_trytes [Char.ofNat 233] = some (.error (.StringNotAscii [Char.ofNat 233])) ∧
    ∃ tr, to_trytes "Z".data = some (.ok tr) :=
  ⟨claim_C6_not_encodable.1 [Char.ofNat 233] (by decide),
   claim_C6_not_encodable.2 "Z".data (by decide)⟩

/-- Claim C7: the five literal test vectors of the test suite. -/
theorem claim_C7_vectors :
    to_trytes "Z".data = some (.ok "IC".data) ∧
    to_trytes "\n".data = some (.ok "J9".data) ∧
    to_trytes "JOTA JOTA".data = some (.ok "TBYBCCKBEATBYBCCKB".data) ∧
    to_string "IC".data = some (.ok "Z".data) ∧
    to_string "TBYBCCKBEATBYBCCKB9".data = some (.ok "JOTA JOTA".data) :=
  ⟨by decide, by decide, by decide, by decide, by decide⟩

/-- Claim C8: the character table maps newline to ordinal 10 and the printable
ASCII characters to their own codes (consecutive ordinals 32 through 126), it is
injective, and `ASCII_TO_CHAR_MAP` is its exact two-sided inverse, total on its
image. -/
theorem claim_C8_table :
    CHAR_TO_ASCII_MAP '\n' = some 10 ∧
    (∀ n : Nat, 32 ≤ n → n ≤ 126 → CHAR_TO_ASCII_MAP (Char.ofNat n) = some n) ∧
    (∀ (c1 c2 : Char) (o : Nat), CHAR_TO_ASCII_MAP c1 = some o →
      CHAR_TO_ASCII_MAP c2 = some o → c1 = c2) ∧
    (∀ (c : Char) (o : Nat), CHAR_TO_ASCII_MAP c = some o → ASCII_TO_CHAR_MAP o = some c) ∧
    (∀ (o : Nat) (c : Char), ASCII_TO_CHAR_MAP o = some c → CHAR_TO_ASCII_MAP c = some o) := by
  refine ⟨by decide, ?_, ?_, ?_, ?_⟩
  · intro n h1 h2
    exact char_map_ofNat n (by omega) h1
  · intro c1 c2 o h1 h2
    have heq := List.inj_on_of_nodup_map tableEntries_vals_nodup
      (mem_of_char_map h1) (mem_of_char_map h2) rfl
    exact congrArg Prod.fst heq
  · intro c o h
    exact ascii_map_char_map h
  · intro o c h
    exact char_map_ascii_map h

/-- Witness for C8 at the character Z (code 90). -/
theorem claim_C8_witness :
    CHAR_TO_ASCII_MAP (Char.ofNat 90) = some 90 ∧
    ASCII_TO_CHAR_MAP 90 = some (Char.ofNat 90) := by
  have h := claim_C8_table
  have h90 := h.2.1 90 (by omega) (by omega)
  exact ⟨h90, h.2.2.2.1 (Char.ofNat 90) 90 h90⟩

/-- Claim C9: every ordinal in the character table is at most 126, so the
defensive clamp branch (ordinal above 255) is unreachable, the radix-27 digits
are within bounds (low digit at most 26, high digit at most 4), and `to_trytes`
never panics on any input. -/
theorem claim_C9_no_panic :
    (∀ (c : Char) (o : Nat), CHAR_TO_ASCII_MAP c = some o →
      o ≤ 126 ∧ ¬ o > 255 ∧ o % 27 ≤ 26 ∧ (o - o % 27) / 27 ≤ 4) ∧
    (∀ input : List Char, (to_trytes input).isSome) := by
  constructor
  · intro c o ho
    have hle := char_map_le ho
    exact ⟨hle, by omega, by omega, by omega⟩
  · exact to_trytes_isSome

/-- Witness for C9 at newline (ordinal 10) and the input "Z". -/
theorem claim_C9_witness :
    (10 ≤ 126 ∧ ¬ 10 > 255 ∧ 10 % 27 ≤ 26 ∧ (10 - 10 % 27) / 27 ≤ 4) ∧
    (to_trytes "Z".data).isSome :=
  ⟨claim_C9_no_panic.1 '\n' 10 (by decide), claim_C9_no_panic.2 "Z".data⟩

/-- Counterexample to claim C10: on a single two-byte character (U+00E9), the
claimed out-of-bounds access on `letters[1]` does not happen; `to_string`
returns a `StringNotTrytes` error normally (its byte length 2 is even, so no
trim occurs, and the singleton chunk already fails the `letters[0]` alphabet
lookup before `letters[1]` is touched). -/
theorem claim_C10_counterexample :
    (Char.ofNat 233).utf8Size = 2 ∧
    to_string [Char.ofNat 233] = some (.error (.StringNotTrytes [Char.ofNat 233])) :=
  ⟨by decide, by decide⟩

/-- Claim C10 as amended: under the precondition that every input character is
single-byte, `to_string` never panics; without it the function is partial, but
through the byte-slice trim falling inside a multi-byte character (here the
three-byte character U+20AC on an odd byte length), not through `letters[1]`. -/
theorem claim_C10_amended :
    (∀ input : List Char, (∀ c ∈ input, c.utf8Size = 1) → (to_string input).isSome) ∧
    to_string [Char.ofNat 8364] = none := by
  constructor
  · intro input h
    have hlen := utf8Len_eq_length input h
    by_cases hpar : utf8Len input % 2 = 0
    · unfold to_string
      rw [trimOdd_of_even hpar]
      exact decodeLoop_isSome_of_even input (by omega) input
    · obtain ⟨c, hc⟩ : ∃ c, input.getLast? = some c := by
        cases hgl : input.getLast? with
        | none =>
          exfalso
          have hnil : input = [] := List.getLast?_eq_none_iff.mp hgl
          subst hnil
          simp [utf8Len] at hpar
        | some c => exact ⟨c, rfl⟩
      have hc1 : c.utf8Size = 1 := h c (List.mem_of_getLast?_eq_some hc)
      have htrim : trimOdd input = some input.dropLast := by
        unfold trimOdd
        rw [if_neg hpar, hc]
        simp [hc1]
      unfold to_string
      rw [htrim]
      apply decodeLoop_isSome_of_even
      rw [List.length_dropLast]
      omega
  · decide

/-- Witness for the amended C10 at the all-ASCII input "IC". -/
theorem claim_C10_witness :
    (to_string "IC".data).isSome ∧ to_string [Char.ofNat 8364] = none :=
  ⟨claim_C10_amended.1 "IC".data (by decide), claim_C10_amended.2⟩

end IotaConversion
